import Mathlib

/-!
Verification development for the CFR solving engine and its surrounding
game implementations (Gomoku, matrix games) in this repository.

Part 1 embeds the Gomoku game (`open_spiel/games/gomoku.{h,cc}`) and the
matrix-game state (`open_spiel/matrix_game.h`) as pure Lean functions over
explicit state records.  Part 2 models the CFR engine, which is declared
in the test harness (`open_spiel/algorithms/cfr_test.cc`) but whose
implementation file is not part of this tree, from the specification
(spec.md §4).  Machine doubles are rendered as exact rationals.
-/

namespace gomoku

/-- Point state of a Gomoku board cell (`PointState` in gomoku.h). -/
inductive PointState where
  | kEmpty
  | kBlack
  | kWhite
deriving DecidableEq

/-- `kNumRows` from gomoku.h. -/
def kNumRows : ℕ := 15

/-- `kNumCols` from gomoku.h. -/
def kNumCols : ℕ := 15

/-- `kNumPoints = kNumRows * kNumCols` from gomoku.h. -/
def kNumPoints : ℕ := kNumRows * kNumCols

/-- Terminal-player sentinel (`kTerminalPlayerId` from spiel.h, which is not
under src/; the concrete value is irrelevant to the claims, it only needs to
be distinct from the player ids 0 and 1). -/
def kTerminalPlayerId : ℤ := -4

/-- The mutable data of a `GomokuState`: the board array `board_`, the field
`current_player_` and the inherited move history `history_`. -/
structure GomokuState where
  board : List PointState
  current_player : ℤ
  history : List ℕ
deriving DecidableEq

/-- `PlayerToState` from gomoku.cc: 0 is black, 1 is white; any other id is a
fatal error in the source, whose (unreachable) fallback value is `kEmpty`. -/
def PlayerToState (player : ℤ) : PointState :=
  if player = 0 then PointState.kBlack
  else if player = 1 then PointState.kWhite
  else PointState.kEmpty

/-- `GomokuState::BoardAt(row, column)`: `board_[row * kNumCols + column]`. -/
def BoardAt (s : GomokuState) (row column : ℕ) : PointState :=
  s.board.getD (row * kNumCols + column) PointState.kEmpty

/-- `GomokuState::HasFiveInner(r_start, c_start, s)` from gomoku.cc: scans a
5x5 block for five aligned equal stones (five row patterns, five column
patterns and the two main diagonals of the block). -/
def HasFiveInner (st : GomokuState) (r_start c_start : ℕ) (s : PointState) : Bool :=
  ((List.range 5).any (fun i =>
    (BoardAt st (r_start + i) c_start == s &&
     BoardAt st (r_start + i) (c_start + 1) == s &&
     BoardAt st (r_start + i) (c_start + 2) == s &&
     BoardAt st (r_start + i) (c_start + 3) == s &&
     BoardAt st (r_start + i) (c_start + 4) == s) ||
    (BoardAt st r_start (c_start + i) == s &&
     BoardAt st (r_start + 1) (c_start + i) == s &&
     BoardAt st (r_start + 2) (c_start + i) == s &&
     BoardAt st (r_start + 3) (c_start + i) == s &&
     BoardAt st (r_start + 4) (c_start + i) == s))) ||
  (BoardAt st r_start c_start == s &&
   BoardAt st (r_start + 1) (c_start + 1) == s &&
   BoardAt st (r_start + 2) (c_start + 2) == s &&
   BoardAt st (r_start + 3) (c_start + 3) == s &&
   BoardAt st (r_start + 4) (c_start + 4) == s) ||
  (BoardAt st (r_start + 4) c_start == s &&
   BoardAt st (r_start + 3) (c_start + 1) == s &&
   BoardAt st (r_start + 2) (c_start + 2) == s &&
   BoardAt st (r_start + 1) (c_start + 3) == s &&
   BoardAt st r_start (c_start + 4) == s)

/-- `GomokuState::HasFive(player)` from gomoku.cc: the 5x5 block scan over all
block origins `0 <= r <= kNumRows - 5`, `0 <= c <= kNumCols - 5`. -/
def HasFive (st : GomokuState) (player : ℤ) : Bool :=
  (List.range (kNumRows - 4)).any (fun r =>
    (List.range (kNumCols - 4)).any (fun c =>
      HasFiveInner st r c (PlayerToState player)))

/-- `GomokuState::IsFull` from gomoku.cc: every point of the board array is
occupied. -/
def IsFull (st : GomokuState) : Bool :=
  (List.range kNumPoints).all (fun point =>
    !(st.board.getD point PointState.kEmpty == PointState.kEmpty))

/-- `GomokuState::IsTerminal` from gomoku.cc. -/
def IsTerminal (st : GomokuState) : Bool :=
  HasFive st 0 || HasFive st 1 || IsFull st

/-- `GomokuState::CurrentPlayer` from gomoku.h. -/
def CurrentPlayer (st : GomokuState) : ℤ :=
  if IsTerminal st then kTerminalPlayerId else st.current_player

/-- `GomokuState::LegalActions` from gomoku.cc: empty for terminal states,
otherwise every empty point in increasing point order. -/
def LegalActions (st : GomokuState) : List ℕ :=
  if IsTerminal st then []
  else (List.range kNumPoints).filter (fun point =>
    st.board.getD point PointState.kEmpty == PointState.kEmpty)

/-- `GomokuState::Returns` from gomoku.cc. -/
def Returns (st : GomokuState) : List ℚ :=
  if HasFive st 0 then [1, -1]
  else if HasFive st 1 then [-1, 1]
  else [0, 0]

/-- `GomokuGame::UtilitySum` from gomoku.h. -/
def UtilitySum : ℚ := 0

/-- `GomokuState::DoApplyAction(move)` from gomoku.cc: place the current
player's stone and flip `current_player_`. -/
def DoApplyAction (st : GomokuState) (move : ℕ) : GomokuState :=
  { st with
    board := st.board.set move (PlayerToState (CurrentPlayer st)),
    current_player := 1 - st.current_player }

/-- `State::ApplyAction(move)`: the base class (spiel.h, not under src/)
records the move on `history_` and dispatches to `DoApplyAction`. -/
def ApplyAction (st : GomokuState) (move : ℕ) : GomokuState :=
  let st' := DoApplyAction st move
  { st' with history := st.history ++ [move] }

/-- `GomokuState::UndoAction(player, move)` from gomoku.cc: clear the cell,
restore `current_player_` to the given player, pop the history. -/
def UndoAction (st : GomokuState) (player : ℤ) (move : ℕ) : GomokuState :=
  { board := st.board.set move PointState.kEmpty,
    current_player := player,
    history := st.history.dropLast }

/-- The initial Gomoku state: an all-empty board, player zero to move, empty
history (`GomokuState` constructor in gomoku.cc). -/
def initialState : GomokuState :=
  { board := List.replicate kNumPoints PointState.kEmpty,
    current_player := 0,
    history := [] }

end gomoku

namespace gomoku

/-- Five consecutive equal stones, stated from the claim's words: a run of
five in a row, in a column, in a down-right diagonal or in an up-right
diagonal, anywhere on the board.  This is the specification-side predicate
compared against the source's block-scan `HasFive`. -/
def hasFiveRun (st : GomokuState) (s : PointState) : Prop :=
  (∃ r c, r < kNumRows ∧ c + 4 < kNumCols ∧
    ∀ i < 5, BoardAt st r (c + i) = s) ∨
  (∃ r c, r + 4 < kNumRows ∧ c < kNumCols ∧
    ∀ i < 5, BoardAt st (r + i) c = s) ∨
  (∃ r c, r + 4 < kNumRows ∧ c + 4 < kNumCols ∧
    ∀ i < 5, BoardAt st (r + i) (c + i) = s) ∨
  (∃ r c, r + 4 < kNumRows ∧ c + 4 < kNumCols ∧
    ∀ i < 5, BoardAt st (r + (4 - i)) (c + i) = s)

/-- All 225 board points occupied, stated from the claim's words. -/
def allPointsOccupied (st : GomokuState) : Prop :=
  ∀ point < kNumPoints, st.board.getD point PointState.kEmpty ≠ PointState.kEmpty

/-- A state whose first five points hold black stones; used to instantiate
the terminal-returns theorem. -/
def fiveBlackState : GomokuState :=
  { board := List.replicate 5 PointState.kBlack, current_player := 1,
    history := [0, 1, 2, 3, 4] }


end gomoku

namespace matrix_game

/-- The data of a `MatrixGame` (matrix_game.h): row and column action names
and the two flattened (row-major) utility tables. -/
structure MatrixGame where
  row_action_names : List String
  col_action_names : List String
  row_utilities : List ℚ
  col_utilities : List ℚ

/-- `MatrixGame::NumRows`. -/
def NumRows (g : MatrixGame) : ℕ := g.row_action_names.length

/-- `MatrixGame::NumCols`. -/
def NumCols (g : MatrixGame) : ℕ := g.col_action_names.length

/-- `MatrixGame::Index(row, col) = row * NumCols() + col`. -/
def Index (g : MatrixGame) (row col : ℤ) : ℤ := row * NumCols g + col

/-- `MatrixGame::RowUtility(row, col) = row_utilities_[Index(row, col)]`. -/
def RowUtility (g : MatrixGame) (row col : ℤ) : ℚ :=
  g.row_utilities.getD (Index g row col).toNat 0

/-- `MatrixGame::ColUtility(row, col) = col_utilities_[Index(row, col)]`. -/
def ColUtility (g : MatrixGame) (row col : ℤ) : ℚ :=
  g.col_utilities.getD (Index g row col).toNat 0

/-- The data of a `MatrixState` (matrix_game.h): the game and the joint move
chosen so far (empty until `DoApplyActions` runs). -/
structure MatrixState where
  game : MatrixGame
  joint_move : List ℤ

/-- `MatrixState::IsTerminal`: `!joint_move_.empty()`. -/
def IsTerminal (s : MatrixState) : Bool := !s.joint_move.isEmpty

/-- `MatrixState::Returns` from matrix_game.h: the matrix entry for the joint
move when terminal, and `{0, 0}` otherwise. -/
def Returns (s : MatrixState) : List ℚ :=
  if IsTerminal s then
    [RowUtility s.game (s.joint_move.getD 0 0) (s.joint_move.getD 1 0),
     ColUtility s.game (s.joint_move.getD 0 0) (s.joint_move.getD 1 0)]
  else [0, 0]

/-- A concrete matrix state with no joint move chosen yet. -/
def freshState : MatrixState :=
  { game := { row_action_names := ["Heads", "Tails"],
              col_action_names := ["Heads", "Tails"],
              row_utilities := [1, -1, -1, 1],
              col_utilities := [-1, 1, 1, -1] },
    joint_move := [] }

end matrix_game

namespace cfr_test

/-- `CheckNashKuhnPoker` from cfr_test.cc: the benchmark acceptance check
applied to the expected-return vector of the average policy.  The source
checks `game_value.size() == 2`, `game_value[0]` within `eps = 1e-3` of
`-nash_value` and `game_value[1]` within `eps` of `+nash_value`, where
`nash_value = 1/18`; the float comparisons are rendered exactly over ℚ. -/
def CheckNashKuhnPoker (game_value : List ℚ) : Bool :=
  (game_value.length == 2) &&
  decide (|game_value.getD 0 0 - (-(1 / 18 : ℚ))| ≤ 1 / 1000) &&
  decide (|game_value.getD 1 0 - (1 / 18 : ℚ)| ≤ 1 / 1000)

/-- The acceptance predicate stated by the claim: within 1e-3 of `+1/18` for
the first player and `-1/18` for the second player, in that order. -/
def claimedNashCheckKuhnPoker (game_value : List ℚ) : Bool :=
  (game_value.length == 2) &&
  decide (|game_value.getD 0 0 - (1 / 18 : ℚ)| ≤ 1 / 1000) &&
  decide (|game_value.getD 1 0 - (-(1 / 18 : ℚ))| ≤ 1 / 1000)

/-- The exact Kuhn-poker equilibrium value vector asserted by the source's
benchmark check: the first player loses 1/18 in expectation. -/
def kuhnNashValueVector : List ℚ := [-(1 / 18), 1 / 18]

end cfr_test

namespace cfr

/-- Modelled from the spec: the InfostateNode record of §3 (the CFR engine
implementation, cfr.h/cfr.cc, is not under src/) — per-action cumulative
regret and cumulative strategy accumulators, both initialized to 0. -/
structure InfoStateNode where
  cumulative_regret : List ℚ
  cumulative_strategy : List ℚ

/-- Modelled from the spec: the information-set table of §3, a growable
mapping from information-set key to its accumulator record. -/
abbrev InfoStateTable := List (String × InfoStateNode)

/-- Lookup of an information-set key in the table. -/
def lookupInfo (t : InfoStateTable) (k : String) : Option InfoStateNode :=
  match t with
  | [] => none
  | e :: rest => if e.1 == k then some e.2 else lookupInfo rest k

/-- Insert-or-replace of an information-set entry in the table. -/
def setInfo (t : InfoStateTable) (k : String) (n : InfoStateNode) : InfoStateTable :=
  match t with
  | [] => [(k, n)]
  | e :: rest => if e.1 == k then (k, n) :: rest else e :: setInfo rest k n

/-- Modelled from the spec: §4.1 regret matching — positive parts normalized
when some regret is positive, else the uniform distribution over the
`r.length` actions. -/
def regretMatching (r : List ℚ) : List ℚ :=
  let rplus := r.map (fun x => max x 0)
  let s := rplus.sum
  if 0 < s then rplus.map (fun x => x / s)
  else List.replicate r.length (1 / (r.length : ℚ))

/-- Modelled from the spec: §4.4 — the average policy normalizes each
cumulative-strategy vector to sum to 1, with a uniform fallback when the
accumulated mass is zero. -/
def normalizeOrUniform (c : List ℚ) : List ℚ :=
  let s := c.sum
  if 0 < s then c.map (fun x => x / s)
  else List.replicate c.length (1 / (c.length : ℚ))

/-- The per-infoset action distribution of `CurrentPolicy()` (§4.4): regret
matching over the cumulative regrets. -/
def CurrentPolicyDist (n : InfoStateNode) : List ℚ :=
  regretMatching n.cumulative_regret

/-- The per-infoset action distribution of `AveragePolicy()` (§4.4):
normalized cumulative strategy. -/
def AveragePolicyDist (n : InfoStateNode) : List ℚ :=
  normalizeOrUniform n.cumulative_strategy

/-- Modelled from the spec: the extensive-form game tree consumed by the
traversal engine (§2, §6, §9) — a discriminated union of terminal payoff
nodes, chance nodes with an outcome distribution, and decision nodes carrying
the acting player, the information-set key and one subtree per legal action
in the game's stable legal-action order. -/
inductive GameNode where
  | terminal (payoffs : List ℚ)
  | chance (outcomes : List (ℚ × GameNode))
  | decision (player : ℕ) (key : String) (children : List GameNode)

mutual

/-- Modelled from the spec: the game-contract conditions of §6 and §7 —
terminal payoff vectors have one entry per player, chance outcome
probabilities are non-negative and sum to 1, decision nodes have a legal
acting player and a non-empty action set whose size agrees with the
information-set key. -/
def gameWF (numPlayers : ℕ) (keyLen : String → ℕ) : GameNode → Bool
  | GameNode.terminal payoffs => payoffs.length == numPlayers
  | GameNode.chance outcomes =>
      ((outcomes.map Prod.fst).sum == 1) &&
      gameWFOutcomes numPlayers keyLen outcomes
  | GameNode.decision player key children =>
      decide (player < numPlayers) && !children.isEmpty &&
      (children.length == keyLen key) &&
      gameWFChildren numPlayers keyLen children

/-- Well-formedness of a chance-outcome list (see `gameWF`). -/
def gameWFOutcomes (numPlayers : ℕ) (keyLen : String → ℕ) :
    List (ℚ × GameNode) → Bool
  | [] => true
  | (q, sub) :: rest =>
      decide (0 ≤ q) && gameWF numPlayers keyLen sub &&
      gameWFOutcomes numPlayers keyLen rest

/-- Well-formedness of a decision node's child list (see `gameWF`). -/
def gameWFChildren (numPlayers : ℕ) (keyLen : String → ℕ) :
    List GameNode → Bool
  | [] => true
  | c :: rest =>
      gameWF numPlayers keyLen c && gameWFChildren numPlayers keyLen rest

end

/-- The all-zero value vector for `n` players. -/
def vecZero (n : ℕ) : List ℚ := List.replicate n 0

/-- Componentwise addition of two value vectors. -/
def vecAdd (a b : List ℚ) : List ℚ := List.zipWith (· + ·) a b

/-- A value vector scaled by a probability. -/
def vecScale (q : ℚ) (v : List ℚ) : List ℚ := v.map (fun x => q * x)

/-- `Σ_a σ[a] · v_a` (§4.2 step 4): the node value as the strategy-weighted
sum of the child value vectors. -/
def weightedValueSum (n : ℕ) : List ℚ → List (List ℚ) → List ℚ
  | σa :: σr, v :: vr => vecAdd (vecScale σa v) (weightedValueSum n σr vr)
  | _, _ => vecZero n

/-- Modelled from the spec: the counterfactual definition of §3/§4.2 step 5 —
the chance reach times the reach probability of all players other than `p`. -/
def counterfactualReach (reach : List ℚ) (p : ℕ) (chanceReach : ℚ) : ℚ :=
  chanceReach * (reach.set p 1).prod

/-- Modelled from the spec: §4.2 step 5 with the §4.3 variants — per action,
add the counterfactual regret contribution `(v_a[p] − value[p]) · cfReach`
(floored at 0 afterwards when regret-matching-plus is on) and add
`σ[a] · myReach · w` to the cumulative strategy, where `w` is the averaging
weight (the iteration index under linear averaging, 1 otherwise). -/
def updatedNode (rmPlus : Bool) (w : ℚ) (node : InfoStateNode) (σ : List ℚ)
    (childVals : List (List ℚ)) (value : List ℚ) (p : ℕ)
    (cfReach myReach : ℚ) : InfoStateNode :=
  { cumulative_regret := List.zipWith (fun ra va =>
      let r := ra + (va - value.getD p 0) * cfReach
      if rmPlus then max r 0 else r)
      node.cumulative_regret (childVals.map (fun v => v.getD p 0)),
    cumulative_strategy := List.zipWith (fun sa pa => sa + pa * myReach * w)
      node.cumulative_strategy σ }

/-- Modelled from the spec: §4.2 step 1 — look up the infoset entry, or
lazily create it zero-initialized for the node's `A` legal actions. -/
def getOrCreate (t : InfoStateTable) (k : String) (A : ℕ) : InfoStateNode :=
  match lookupInfo t k with
  | some n => n
  | none => { cumulative_regret := List.replicate A 0,
              cumulative_strategy := List.replicate A 0 }

mutual

/-- Modelled from the spec: §4.2 — the recursive counterfactual-value
traversal.  Terminal nodes return the payoff vector; chance nodes return the
probability-weighted sum over outcomes; decision nodes look up (or lazily
create) the infoset entry, derive the current strategy by regret matching,
recurse per action with the acting player's reach scaled by `σ[a]`, and, when
the acting player is among the players being updated this pass, accumulate
regrets and cumulative strategy.  `none` models the fatal halt of §7 on a
game-contract violation (an empty action set or an information-set key
collision across differing action counts). -/
def cfrTraverse (numPlayers : ℕ) (rmPlus : Bool) (w : ℚ) (upd : ℕ → Bool) :
    GameNode → List ℚ → ℚ → InfoStateTable → Option (List ℚ × InfoStateTable)
  | GameNode.terminal payoffs, _, _, t => some (payoffs, t)
  | GameNode.chance outcomes, reach, chanceReach, t =>
      cfrChance numPlayers rmPlus w upd outcomes reach chanceReach t
  | GameNode.decision p k children, reach, chanceReach, t =>
      if children.isEmpty then none
      else
        let node := getOrCreate t k children.length
        if node.cumulative_regret.length = children.length ∧
            node.cumulative_strategy.length = children.length then
          let t0 := setInfo t k node
          let σ := regretMatching node.cumulative_regret
          match cfrChildren numPlayers rmPlus w upd p σ children reach chanceReach t0 with
          | none => none
          | some (childVals, t1) =>
            let value := weightedValueSum numPlayers σ childVals
            if upd p then
              match lookupInfo t1 k with
              | none => none
              | some cur =>
                if cur.cumulative_regret.length = children.length ∧
                    cur.cumulative_strategy.length = children.length then
                  some (value, setInfo t1 k
                    (updatedNode rmPlus w cur σ childVals value p
                      (counterfactualReach reach p chanceReach) (reach.getD p 1)))
                else none
            else some (value, t1)
        else none

/-- Chance-outcome traversal (§4.2): recurse on every outcome with the chance
reach multiplied by its probability and sum the weighted value vectors,
threading the table left to right. -/
def cfrChance (numPlayers : ℕ) (rmPlus : Bool) (w : ℚ) (upd : ℕ → Bool) :
    List (ℚ × GameNode) → List ℚ → ℚ → InfoStateTable →
    Option (List ℚ × InfoStateTable)
  | [], _, _, t => some (vecZero numPlayers, t)
  | (q, sub) :: rest, reach, chanceReach, t =>
      match cfrTraverse numPlayers rmPlus w upd sub reach (chanceReach * q) t with
      | none => none
      | some (v, t1) =>
        match cfrChance numPlayers rmPlus w upd rest reach chanceReach t1 with
        | none => none
        | some (vrest, t2) => some (vecAdd (vecScale q v) vrest, t2)

/-- Per-action traversal of a decision node's children (§4.2 step 3): the
`i`-th child is visited with the acting player's reach multiplied by `σ[i]`,
the table threading left to right in the stable action order. -/
def cfrChildren (numPlayers : ℕ) (rmPlus : Bool) (w : ℚ) (upd : ℕ → Bool)
    (p : ℕ) :
    List ℚ → List GameNode → List ℚ → ℚ → InfoStateTable →
    Option (List (List ℚ) × InfoStateTable)
  | _, [], _, _, t => some ([], t)
  | σ, child :: rest, reach, chanceReach, t =>
      match cfrTraverse numPlayers rmPlus w upd child
          (reach.set p (reach.getD p 1 * σ.headD 0)) chanceReach t with
      | none => none
      | some (v, t1) =>
        match cfrChildren numPlayers rmPlus w upd p σ.tail rest reach chanceReach t1 with
        | none => none
        | some (vs, t2) => some (v :: vs, t2)

end

/-- The solver state: the information-set table plus the iteration counter
used for linear averaging (counted from 1, §4.3). -/
structure CFRSolverState where
  info_states : InfoStateTable
  iteration : ℕ

/-- One alternating-updates pass for a single player (§4.3): a full traversal
during which only that player's accumulators are mutated. -/
def cfrPlayerPass (numPlayers : ℕ) (rmPlus : Bool) (w : ℚ) (root : GameNode)
    (acc : Option InfoStateTable) (p : ℕ) : Option InfoStateTable :=
  match acc with
  | none => none
  | some t =>
      match cfrTraverse numPlayers rmPlus w (fun q => q == p) root
          (List.replicate numPlayers 1) 1 t with
      | none => none
      | some (_, t') => some t'

/-- Modelled from the spec: §4.4 `EvaluateAndUpdatePolicy()` — one logical
iteration: under alternating updates one traversal per player in the fixed
order 0..N−1, otherwise a single traversal updating all players; the
iteration counter advances once per call. -/
def EvaluateAndUpdatePolicy (numPlayers : ℕ) (rmPlus linAvg altUpd : Bool)
    (root : GameNode) (st : CFRSolverState) : Option CFRSolverState :=
  let w : ℚ := if linAvg then (st.iteration : ℚ) else 1
  let res :=
    if altUpd then
      (List.range numPlayers).foldl (cfrPlayerPass numPlayers rmPlus w root)
        (some st.info_states)
    else
      match cfrTraverse numPlayers rmPlus w (fun _ => true) root
          (List.replicate numPlayers 1) 1 st.info_states with
      | none => none
      | some (_, t') => some t'
  res.map (fun t => { info_states := t, iteration := st.iteration + 1 })

/-- A fresh solver (empty table, iteration counter starting at 1) advanced by
`n` calls of `EvaluateAndUpdatePolicy`. -/
def runSolver (numPlayers : ℕ) (rmPlus linAvg altUpd : Bool) (root : GameNode) :
    ℕ → Option CFRSolverState
  | 0 => some { info_states := [], iteration := 1 }
  | Nat.succ n =>
      (runSolver numPlayers rmPlus linAvg altUpd root n).bind
        (EvaluateAndUpdatePolicy numPlayers rmPlus linAvg altUpd root)

/-- A vector of action probabilities: componentwise non-negative, summing
to 1. -/
def IsProbDist (pr : List ℚ) : Prop := (∀ x ∈ pr, 0 ≤ x) ∧ pr.sum = 1

/-- The table invariant: every entry's accumulator vectors have the length
prescribed by its key, that length is at least 1, and the cumulative-strategy
entries are non-negative. -/
def TableWF (keyLen : String → ℕ) (t : InfoStateTable) : Prop :=
  ∀ e ∈ t, e.2.cumulative_regret.length = keyLen e.1 ∧
           e.2.cumulative_strategy.length = keyLen e.1 ∧
           1 ≤ keyLen e.1 ∧
           ∀ x ∈ e.2.cumulative_strategy, 0 ≤ x

/-- A concrete two-player matching-pennies game tree over one information set
per player, used to instantiate the solver theorems. -/
def mpGame : GameNode :=
  GameNode.decision 0 "P0"
    [GameNode.decision 1 "P1"
      [GameNode.terminal [1, -1], GameNode.terminal [-1, 1]],
     GameNode.decision 1 "P1"
      [GameNode.terminal [-1, 1], GameNode.terminal [1, -1]]]

end cfr

namespace gomoku

theorem forall_lt_five {P : ℕ → Prop} :
    (∀ i < 5, P i) ↔ P 0 ∧ P 1 ∧ P 2 ∧ P 3 ∧ P 4 := by
  constructor
  · intro h
    exact ⟨h 0 (by norm_num), h 1 (by norm_num), h 2 (by norm_num),
           h 3 (by norm_num), h 4 (by norm_num)⟩
  · rintro ⟨h0, h1, h2, h3, h4⟩ i hi
    interval_cases i <;> assumption

theorem hasFiveInner_iff (st : GomokuState) (r c : ℕ) (s : PointState) :
    HasFiveInner st r c s = true ↔
      (∃ i < 5,
        BoardAt st (r + i) c = s ∧ BoardAt st (r + i) (c + 1) = s ∧
        BoardAt st (r + i) (c + 2) = s ∧ BoardAt st (r + i) (c + 3) = s ∧
        BoardAt st (r + i) (c + 4) = s) ∨
      (∃ i < 5,
        BoardAt st r (c + i) = s ∧ BoardAt st (r + 1) (c + i) = s ∧
        BoardAt st (r + 2) (c + i) = s ∧ BoardAt st (r + 3) (c + i) = s ∧
        BoardAt st (r + 4) (c + i) = s) ∨
      (BoardAt st r c = s ∧ BoardAt st (r + 1) (c + 1) = s ∧
       BoardAt st (r + 2) (c + 2) = s ∧ BoardAt st (r + 3) (c + 3) = s ∧
       BoardAt st (r + 4) (c + 4) = s) ∨
      (BoardAt st (r + 4) c = s ∧ BoardAt st (r + 3) (c + 1) = s ∧
       BoardAt st (r + 2) (c + 2) = s ∧ BoardAt st (r + 1) (c + 3) = s ∧
       BoardAt st r (c + 4) = s) := by
  simp only [HasFiveInner, Bool.or_eq_true, List.any_eq_true, List.mem_range,
    Bool.and_eq_true, beq_iff_eq, and_assoc, and_or_left, exists_or]
  rw [or_assoc, or_assoc]

theorem hasFive_iff (st : GomokuState) (p : ℤ) :
    HasFive st p = true ↔ hasFiveRun st (PlayerToState p) := by
  constructor
  · intro h
    simp only [HasFive, List.any_eq_true, List.mem_range] at h
    obtain ⟨r, hr, c, hc, hinner⟩ := h
    rw [hasFiveInner_iff] at hinner
    simp only [kNumRows, kNumCols] at hr hc ⊢
    unfold hasFiveRun
    simp only [kNumRows, kNumCols]
    rcases hinner with ⟨i, hi, hrow⟩ | ⟨i, hi, hcol⟩ | hdiag | hanti
    · exact Or.inl ⟨r + i, c, by omega, by omega, forall_lt_five.mpr
        ⟨hrow.1, hrow.2.1, hrow.2.2.1, hrow.2.2.2.1, hrow.2.2.2.2⟩⟩
    · exact Or.inr (Or.inl ⟨r, c + i, by omega, by omega, forall_lt_five.mpr
        ⟨hcol.1, hcol.2.1, hcol.2.2.1, hcol.2.2.2.1, hcol.2.2.2.2⟩⟩)
    · exact Or.inr (Or.inr (Or.inl ⟨r, c, by omega, by omega, forall_lt_five.mpr
        ⟨hdiag.1, hdiag.2.1, hdiag.2.2.1, hdiag.2.2.2.1, hdiag.2.2.2.2⟩⟩))
    · exact Or.inr (Or.inr (Or.inr ⟨r, c, by omega, by omega, forall_lt_five.mpr
        ⟨hanti.1, hanti.2.1, hanti.2.2.1, hanti.2.2.2.1, hanti.2.2.2.2⟩⟩))
  · intro h
    simp only [HasFive, List.any_eq_true, List.mem_range]
    unfold hasFiveRun at h
    simp only [kNumRows, kNumCols] at h ⊢
    rcases h with ⟨r, c, hr, hc, hrun⟩ | ⟨r, c, hr, hc, hrun⟩ |
      ⟨r, c, hr, hc, hrun⟩ | ⟨r, c, hr, hc, hrun⟩
    · refine ⟨min r 10, by omega, c, by omega, ?_⟩
      rw [hasFiveInner_iff]
      refine Or.inl ⟨r - min r 10, by omega, ?_⟩
      have hrc : min r 10 + (r - min r 10) = r := by omega
      rw [hrc]
      have hs := forall_lt_five.mp hrun
      exact ⟨hs.1, hs.2.1, hs.2.2.1, hs.2.2.2.1, hs.2.2.2.2⟩
    · refine ⟨r, by omega, min c 10, by omega, ?_⟩
      rw [hasFiveInner_iff]
      refine Or.inr (Or.inl ⟨c - min c 10, by omega, ?_⟩)
      have hcc : min c 10 + (c - min c 10) = c := by omega
      rw [hcc]
      have hs := forall_lt_five.mp hrun
      exact ⟨hs.1, hs.2.1, hs.2.2.1, hs.2.2.2.1, hs.2.2.2.2⟩
    · refine ⟨r, by omega, c, by omega, ?_⟩
      rw [hasFiveInner_iff]
      have hs := forall_lt_five.mp hrun
      exact Or.inr (Or.inr (Or.inl ⟨hs.1, hs.2.1, hs.2.2.1, hs.2.2.2.1, hs.2.2.2.2⟩))
    · refine ⟨r, by omega, c, by omega, ?_⟩
      rw [hasFiveInner_iff]
      have hs := forall_lt_five.mp hrun
      exact Or.inr (Or.inr (Or.inr ⟨hs.1, hs.2.1, hs.2.2.1, hs.2.2.2.1, hs.2.2.2.2⟩))

theorem isFull_iff (st : GomokuState) :
    IsFull st = true ↔ allPointsOccupied st := by
  simp [IsFull, allPointsOccupied, List.all_eq_true, List.mem_range]

end gomoku

section C7Theorems

open gomoku

/-- C7: LegalActions on a non-terminal state is exactly the empty points in
strictly increasing index order, it is empty on terminal states, and as a pure
function of the state it is identical across calls on equal states. -/
theorem gomoku_legalActions_c7 (s s' : GomokuState) (a : ℕ) :
    (IsTerminal s = true → LegalActions s = []) ∧
    (IsTerminal s = false →
      (LegalActions s).Pairwise (· < ·) ∧
      (a ∈ LegalActions s ↔
        a < kNumPoints ∧ s.board.getD a PointState.kEmpty = PointState.kEmpty)) ∧
    (s = s' → LegalActions s = LegalActions s') := by
  refine ⟨fun h => ?_, fun h => ⟨?_, ?_⟩, fun h => by rw [h]⟩
  · simp [LegalActions, h]
  · simp only [LegalActions, h, if_neg]
    exact List.Pairwise.filter _ (List.pairwise_lt_range _)
  · simp [LegalActions, h, List.mem_filter, List.mem_range]

/-- Concrete instantiation of `gomoku_legalActions_c7` at the initial state
and action 3, discharging its hypotheses. -/
theorem gomoku_legalActions_c7_witness :
    (LegalActions initialState).Pairwise (· < ·) ∧
    (3 ∈ LegalActions initialState ↔
      3 < kNumPoints ∧
      initialState.board.getD 3 PointState.kEmpty = PointState.kEmpty) :=
  (gomoku_legalActions_c7 initialState initialState 3).2.1 (by decide)

end C7Theorems

section C8C9C10Theorems

open gomoku

/-- C8: IsTerminal holds exactly when a player has five consecutive stones in
a row, column or diagonal or all 225 points are occupied, and Returns follows
the win cases with utilities that always sum to 0, matching UtilitySum = 0. -/
theorem gomoku_terminal_returns_c8 (s : GomokuState) :
    (IsTerminal s = true ↔
      (hasFiveRun s PointState.kBlack ∨ hasFiveRun s PointState.kWhite ∨
        allPointsOccupied s)) ∧
    (hasFiveRun s PointState.kBlack → Returns s = [1, -1]) ∧
    (¬ hasFiveRun s PointState.kBlack → hasFiveRun s PointState.kWhite →
      Returns s = [-1, 1]) ∧
    (¬ hasFiveRun s PointState.kBlack → ¬ hasFiveRun s PointState.kWhite →
      Returns s = [0, 0]) ∧
    (Returns s).sum = 0 ∧ UtilitySum = 0 := by
  have h0 : HasFive s 0 = true ↔ hasFiveRun s PointState.kBlack := by
    rw [hasFive_iff]; rfl
  have h1 : HasFive s 1 = true ↔ hasFiveRun s PointState.kWhite := by
    rw [hasFive_iff]; rfl
  refine ⟨?_, ?_, ?_, ?_, ?_, rfl⟩
  · rw [IsTerminal]
    simp only [Bool.or_eq_true, h0, h1, isFull_iff]
    rw [or_assoc]
  · intro hb
    rw [Returns, if_pos (h0.mpr hb)]
  · intro hnb hw
    rw [Returns, if_neg (by simp [h0, hnb]), if_pos (h1.mpr hw)]
  · intro hnb hnw
    rw [Returns, if_neg (by simp [h0, hnb]), if_neg (by simp [h1, hnw])]
  · rw [Returns]
    split_ifs <;> norm_num

/-- Concrete instantiation of `gomoku_terminal_returns_c8`: a board with
black stones on points 0..4 is a player-0 win with returns (1, -1). -/
theorem gomoku_terminal_returns_c8_witness :
    Returns fiveBlackState = [1, -1] :=
  (gomoku_terminal_returns_c8 fiveBlackState).2.1
    (Or.inl ⟨0, 0, by norm_num [kNumRows], by norm_num [kNumCols],
      by intro i hi; interval_cases i <;> decide⟩)

/-- C9: for a non-terminal state and an empty cell `m`, applying `m` and then
undoing it with the acting player restores the original state exactly. -/
theorem gomoku_undo_apply_c9 (s : GomokuState) (m : ℕ)
    (hterm : IsTerminal s = false) (hm : m < s.board.length)
    (hempty : s.board.getD m PointState.kEmpty = PointState.kEmpty) :
    UndoAction (ApplyAction s m) (CurrentPlayer s) m = s := by
  have hboard : ∀ x : PointState,
      (s.board.set m x).set m PointState.kEmpty = s.board := by
    intro x
    rw [List.set_set]
    apply List.ext_getElem (by simp)
    intro i hi1 hi2
    rw [List.getElem_set]
    split
    · next heq =>
      subst heq
      rw [List.getD_eq_getElem?_getD, List.getElem?_eq_getElem hm] at hempty
      simpa using hempty.symm
    · rfl
  have hcur : CurrentPlayer s = s.current_player := by
    rw [CurrentPlayer, if_neg (by simp [hterm])]
  obtain ⟨board, cur, hist⟩ := s
  simp only [UndoAction, ApplyAction, DoApplyAction, GomokuState.mk.injEq]
  exact ⟨hboard _, hcur, List.dropLast_concat⟩

set_option maxRecDepth 10000 in
/-- Concrete instantiation of `gomoku_undo_apply_c9` at the initial state and
move 7. -/
theorem gomoku_undo_apply_c9_witness :
    UndoAction (ApplyAction initialState 7) (CurrentPlayer initialState) 7 =
      initialState :=
  gomoku_undo_apply_c9 initialState 7 (by decide) (by decide) (by decide)

/-- C10: Returns is total on non-terminal states for both GomokuState and
MatrixState, where it yields the all-zero utility vector. -/
theorem returns_total_c10 (s : gomoku.GomokuState) (ms : matrix_game.MatrixState)
    (h1 : gomoku.IsTerminal s = false) (h2 : matrix_game.IsTerminal ms = false) :
    gomoku.Returns s = [0, 0] ∧ matrix_game.Returns ms = [0, 0] := by
  constructor
  · rw [gomoku.IsTerminal] at h1
    simp only [Bool.or_eq_false_iff] at h1
    rw [gomoku.Returns, if_neg (by simp [h1.1.1]), if_neg (by simp [h1.1.2])]
  · rw [matrix_game.Returns, if_neg (by simp [h2])]

set_option maxRecDepth 10000 in
/-- Concrete instantiation of `returns_total_c10` at the initial Gomoku state
and a fresh matrix state. -/
theorem returns_total_c10_witness :
    gomoku.Returns gomoku.initialState = [0, 0] ∧
    matrix_game.Returns matrix_game.freshState = [0, 0] :=
  returns_total_c10 gomoku.initialState matrix_game.freshState
    (by decide) (by decide)

end C8C9C10Theorems

section C1Theorems

open cfr_test

/-- C1 (amended): the benchmark check shipped with the repository accepts an
expected-return vector exactly when it is within 1e-3 of −1/18 for the first
player and +1/18 for the second player; consequently no vector it accepts can
satisfy the claim's stated orientation (+1/18 first, −1/18 second). -/
theorem checkNashKuhnPoker_characterization_c1 (v0 v1 : ℚ) :
    (CheckNashKuhnPoker [v0, v1] = true ↔
      (|v0 - (-(1 / 18))| ≤ 1 / 1000 ∧ |v1 - (1 / 18)| ≤ 1 / 1000)) ∧
    (CheckNashKuhnPoker [v0, v1] = true →
      claimedNashCheckKuhnPoker [v0, v1] = false) := by
  constructor
  · simp [CheckNashKuhnPoker, List.getD_cons_zero, List.getD_cons_succ]
  · intro h
    simp only [CheckNashKuhnPoker, Bool.and_eq_true, beq_iff_eq,
      decide_eq_true_eq, List.getD_cons_zero, List.getD_cons_succ] at h
    simp only [claimedNashCheckKuhnPoker, Bool.and_eq_false_iff,
      decide_eq_false_iff_not, List.getD_cons_zero, List.getD_cons_succ]
    obtain ⟨⟨-, h0⟩, h1⟩ := h
    refine Or.inl (Or.inr ?_)
    intro hc
    rw [abs_le] at h0 hc
    linarith [h0.1, h0.2, hc.1, hc.2]

/-- The claim's stated benchmark orientation is false on the code: the exact
Kuhn Nash value vector (−1/18, +1/18) passes the source's benchmark check but
fails the claim's stated check, so a run the test certifies cannot satisfy
the claim as written. -/
theorem claimedNashCheck_counterexample_c1 :
    CheckNashKuhnPoker kuhnNashValueVector = true ∧
    claimedNashCheckKuhnPoker kuhnNashValueVector = false := by
  constructor
  · simp [CheckNashKuhnPoker, kuhnNashValueVector]
  · norm_num [claimedNashCheckKuhnPoker, kuhnNashValueVector, abs_le]

/-- Concrete instantiation of `checkNashKuhnPoker_characterization_c1` at the
exact Nash value vector. -/
theorem checkNashKuhnPoker_characterization_c1_witness :
    claimedNashCheckKuhnPoker [-(1 / 18), 1 / 18] = false :=
  (checkNashKuhnPoker_characterization_c1 (-(1 / 18)) (1 / 18)).2
    (by simp [CheckNashKuhnPoker])

end C1Theorems

namespace cfr

theorem getD_nonneg : ∀ (l : List ℚ) (i : ℕ) (d : ℚ),
    (∀ x ∈ l, 0 ≤ x) → 0 ≤ d → 0 ≤ l.getD i d
  | [], i, d, _, hd => by simpa [List.getD] using hd
  | a :: l, 0, d, hl, _ => by simpa using hl a (by simp)
  | a :: l, i + 1, d, hl, hd => by
      simpa [List.getD_cons_succ] using
        getD_nonneg l i d (fun x hx => hl x (by simp [hx])) hd

theorem headD_nonneg {l : List ℚ} (hl : ∀ x ∈ l, 0 ≤ x) : 0 ≤ l.headD 0 := by
  cases l with
  | nil => simp
  | cons a l => exact hl a (by simp)

theorem sum_map_div (l : List ℚ) (s : ℚ) :
    (l.map (fun x => x / s)).sum = l.sum / s := by
  induction l with
  | nil => simp
  | cons a l ih => simp [ih, add_div]

theorem regretMatching_length (r : List ℚ) :
    (regretMatching r).length = r.length := by
  simp only [regretMatching]
  split <;> simp

theorem regretMatching_nonneg (r : List ℚ) : ∀ x ∈ regretMatching r, 0 ≤ x := by
  simp only [regretMatching]
  split
  · next hs =>
    intro x hx
    simp only [List.mem_map] at hx
    obtain ⟨y, ⟨z, hz, rfl⟩, rfl⟩ := hx
    exact div_nonneg (le_max_right _ _) hs.le
  · intro x hx
    rw [List.eq_of_mem_replicate hx]
    exact one_div_nonneg.mpr (Nat.cast_nonneg _)

theorem regretMatching_sum (r : List ℚ) (h : 1 ≤ r.length) :
    (regretMatching r).sum = 1 := by
  simp only [regretMatching]
  split
  · next hs => rw [sum_map_div, div_self hs.ne']
  · rw [List.sum_replicate, nsmul_eq_mul, mul_one_div,
      div_self (Nat.cast_ne_zero.mpr (by omega))]

theorem regretMatching_isProbDist (r : List ℚ) (h : 1 ≤ r.length) :
    IsProbDist (regretMatching r) :=
  ⟨regretMatching_nonneg r, regretMatching_sum r h⟩

theorem normalizeOrUniform_isProbDist (c : List ℚ) (h : 1 ≤ c.length)
    (hc : ∀ x ∈ c, 0 ≤ x) : IsProbDist (normalizeOrUniform c) := by
  constructor
  · simp only [normalizeOrUniform]
    split
    · next hs =>
      intro x hx
      simp only [List.mem_map] at hx
      obtain ⟨y, hy, rfl⟩ := hx
      exact div_nonneg (hc y hy) hs.le
    · intro x hx
      rw [List.eq_of_mem_replicate hx]
      exact one_div_nonneg.mpr (Nat.cast_nonneg _)
  · simp only [normalizeOrUniform]
    split
    · next hs => rw [sum_map_div, div_self hs.ne']
    · rw [List.sum_replicate, nsmul_eq_mul, mul_one_div,
        div_self (Nat.cast_ne_zero.mpr (by omega))]

theorem lookupInfo_mem {t : InfoStateTable} {k : String} {n : InfoStateNode}
    (h : lookupInfo t k = some n) : (k, n) ∈ t := by
  induction t with
  | nil => simp [lookupInfo] at h
  | cons e rest ih =>
    rw [lookupInfo] at h
    by_cases heq : e.1 = k
    · rw [if_pos (by simpa using heq)] at h
      obtain ⟨e1, e2⟩ := e
      simp only at heq
      subst heq
      simp only [Option.some.injEq] at h
      subst h
      exact List.Mem.head _
    · rw [if_neg (by simpa using heq)] at h
      exact List.mem_cons_of_mem _ (ih h)

theorem mem_setInfo {t : InfoStateTable} {k : String} {n : InfoStateNode}
    {e : String × InfoStateNode} (h : e ∈ setInfo t k n) :
    e = (k, n) ∨ e ∈ t := by
  induction t with
  | nil => simpa [setInfo] using h
  | cons f rest ih =>
    rw [setInfo] at h
    split at h
    · rcases List.mem_cons.mp h with h | h
      · exact Or.inl h
      · exact Or.inr (List.mem_cons_of_mem _ h)
    · rcases List.mem_cons.mp h with h | h
      · exact Or.inr (by simp [h])
      · rcases ih h with h | h
        · exact Or.inl h
        · exact Or.inr (List.mem_cons_of_mem _ h)

theorem lookupInfo_setInfo_self (t : InfoStateTable) (k : String)
    (n : InfoStateNode) : lookupInfo (setInfo t k n) k = some n := by
  induction t with
  | nil => simp [setInfo, lookupInfo]
  | cons e rest ih =>
    rw [setInfo]
    split
    · rw [lookupInfo]
      simp
    · next hne =>
      rw [lookupInfo, if_neg (by simpa using hne)]
      exact ih

theorem lookupInfo_setInfo_ne (t : InfoStateTable) {k k' : String}
    (n : InfoStateNode) (h : k' ≠ k) :
    lookupInfo (setInfo t k n) k' = lookupInfo t k' := by
  induction t with
  | nil =>
    simp only [setInfo, lookupInfo]
    rw [if_neg (by simpa using (Ne.symm h))]
  | cons e rest ih =>
    rw [setInfo]
    split
    · next heq =>
      have he : e.1 = k := by simpa using heq
      rw [lookupInfo, lookupInfo, if_neg (by simpa using (Ne.symm h)),
        if_neg (by simp [he]; exact (Ne.symm h))]
    · rw [lookupInfo, lookupInfo]
      split
      · rfl
      · exact ih

theorem lookupInfo_isSome_setInfo (t : InfoStateTable) (k k' : String)
    (n : InfoStateNode) (h : (lookupInfo t k').isSome) :
    (lookupInfo (setInfo t k n) k').isSome := by
  by_cases hk : k' = k
  · subst hk
    rw [lookupInfo_setInfo_self]
    rfl
  · rw [lookupInfo_setInfo_ne t n hk]
    exact h

theorem TableWF_setInfo {keyLen : String → ℕ} {t : InfoStateTable}
    {k : String} {n : InfoStateNode} (ht : TableWF keyLen t)
    (h1 : n.cumulative_regret.length = keyLen k)
    (h2 : n.cumulative_strategy.length = keyLen k)
    (h3 : 1 ≤ keyLen k) (h4 : ∀ x ∈ n.cumulative_strategy, 0 ≤ x) :
    TableWF keyLen (setInfo t k n) := by
  intro e he
  rcases mem_setInfo he with rfl | he
  · exact ⟨h1, h2, h3, h4⟩
  · exact ht e he

theorem vecZero_length (n : ℕ) : (vecZero n).length = n := by
  simp [vecZero]

theorem vecAdd_length (a b : List ℚ) :
    (vecAdd a b).length = min a.length b.length := by
  simp [vecAdd]

theorem vecScale_length (q : ℚ) (v : List ℚ) :
    (vecScale q v).length = v.length := by
  simp [vecScale]

theorem weightedValueSum_length (n : ℕ) :
    ∀ (σ : List ℚ) (vals : List (List ℚ)),
      (∀ v ∈ vals, v.length = n) → (weightedValueSum n σ vals).length = n := by
  intro σ
  induction σ with
  | nil => intro vals _; cases vals <;> simp [weightedValueSum, vecZero]
  | cons σa σr ih =>
    intro vals h
    cases vals with
    | nil => simp [weightedValueSum, vecZero]
    | cons v vr =>
      rw [weightedValueSum, vecAdd_length, vecScale_length, h v (by simp),
        ih vr (fun u hu => h u (by simp [hu]))]
      simp

theorem forall_mem_zipWith {α β γ : Type} {f : α → β → γ} {P : γ → Prop} :
    ∀ {as : List α} {bs : List β},
      (∀ a ∈ as, ∀ b ∈ bs, P (f a b)) → ∀ x ∈ List.zipWith f as bs, P x := by
  intro as
  induction as with
  | nil => intro bs _ x hx; simp at hx
  | cons a as ih =>
    intro bs h x hx
    cases bs with
    | nil => simp at hx
    | cons b bs =>
      rw [List.zipWith_cons_cons] at hx
      rcases List.mem_cons.mp hx with rfl | hx
      · exact h a (by simp) b (by simp)
      · exact ih (fun a' ha' b' hb' => h a' (by simp [ha']) b' (by simp [hb'])) x hx

theorem getOrCreate_spec {keyLen : String → ℕ} {t : InfoStateTable}
    {k : String} {A : ℕ} (ht : TableWF keyLen t) (hA : A = keyLen k) :
    (getOrCreate t k A).cumulative_regret.length = A ∧
    (getOrCreate t k A).cumulative_strategy.length = A ∧
    ∀ x ∈ (getOrCreate t k A).cumulative_strategy, 0 ≤ x := by
  rw [getOrCreate]
  cases hlook : lookupInfo t k with
  | none =>
    exact ⟨by simp, by simp, fun x hx => by rw [List.eq_of_mem_replicate hx]⟩
  | some n =>
    obtain ⟨l1, l2, -, l4⟩ := ht _ (lookupInfo_mem hlook)
    exact ⟨l1.trans hA.symm, l2.trans hA.symm, l4⟩

mutual

theorem cfrTraverse_sound (numPlayers : ℕ) (rmPlus : Bool) (w : ℚ)
    (upd : ℕ → Bool) (keyLen : String → ℕ) (node : GameNode) (reach : List ℚ)
    (chanceReach : ℚ) (t : InfoStateTable)
    (hg : gameWF numPlayers keyLen node = true) (ht : TableWF keyLen t)
    (hreach : ∀ x ∈ reach, 0 ≤ x) (hcr : 0 ≤ chanceReach) (hw : 0 ≤ w) :
    ∃ v t', cfrTraverse numPlayers rmPlus w upd node reach chanceReach t =
        some (v, t') ∧
      v.length = numPlayers ∧ TableWF keyLen t' ∧
      ∀ k, (lookupInfo t k).isSome → (lookupInfo t' k).isSome := by
  match node with
  | GameNode.terminal payoffs =>
    refine ⟨payoffs, t, ?_, ?_, ht, fun k h => h⟩
    · simp only [cfrTraverse]
    · simpa [gameWF] using hg
  | GameNode.chance outcomes =>
    rw [gameWF, Bool.and_eq_true] at hg
    have hrec := cfrChance_sound numPlayers rmPlus w upd keyLen outcomes reach
      chanceReach t hg.2 ht hreach hcr hw
    simpa only [cfrTraverse] using hrec
  | GameNode.decision p k children =>
    simp only [gameWF, Bool.and_eq_true, decide_eq_true_eq, beq_iff_eq,
      Bool.not_eq_true'] at hg
    obtain ⟨⟨⟨hp, hne⟩, hklen⟩, hch⟩ := hg
    have hcpos : 1 ≤ children.length := by
      cases children with
      | nil => simp at hne
      | cons _ _ => simp
    obtain ⟨hr0, hs0, hsn0⟩ := getOrCreate_spec ht hklen (t := t) (k := k)
    have ht0 : TableWF keyLen (setInfo t k (getOrCreate t k children.length)) :=
      TableWF_setInfo ht (hr0.trans hklen) (hs0.trans hklen)
        (hklen ▸ hcpos) hsn0
    obtain ⟨vs, t1, he1, hvslen, hvN, ht1, hm1⟩ :=
      cfrChildren_sound numPlayers rmPlus w upd keyLen p
        (regretMatching (getOrCreate t k children.length).cumulative_regret)
        children reach chanceReach (setInfo t k (getOrCreate t k children.length))
        hch ht0 (regretMatching_nonneg _) hreach hcr hw
    have hvallen :
        (weightedValueSum numPlayers
          (regretMatching (getOrCreate t k children.length).cumulative_regret)
          vs).length = numPlayers :=
      weightedValueSum_length _ _ _ hvN
    have hsome1 : (lookupInfo t1 k).isSome :=
      hm1 k (by rw [lookupInfo_setInfo_self]; rfl)
    cases hupd : upd p with
    | false =>
      refine ⟨_, t1, ?_, hvallen, ht1,
        fun k' h => hm1 k' (lookupInfo_isSome_setInfo t k k' _ h)⟩
      simp only [cfrTraverse, hne, Bool.false_eq_true, if_false,
        if_pos (And.intro hr0 hs0), he1, hupd]
    | true =>
      cases hcur : lookupInfo t1 k with
      | none => rw [hcur] at hsome1; simp at hsome1
      | some cur =>
        obtain ⟨hc1, hc2, -, hc4⟩ := ht1 _ (lookupInfo_mem hcur)
        have hclen : cur.cumulative_regret.length = children.length ∧
            cur.cumulative_strategy.length = children.length :=
          ⟨hc1.trans hklen.symm, hc2.trans hklen.symm⟩
        refine ⟨weightedValueSum numPlayers
            (regretMatching (getOrCreate t k children.length).cumulative_regret)
            vs,
          setInfo t1 k (updatedNode rmPlus w cur
            (regretMatching (getOrCreate t k children.length).cumulative_regret)
            vs
            (weightedValueSum numPlayers
              (regretMatching
                (getOrCreate t k children.length).cumulative_regret) vs)
            p (counterfactualReach reach p chanceReach) (reach.getD p 1)),
          ?_, hvallen, ?_, ?_⟩
        · simp only [cfrTraverse, hne, Bool.false_eq_true, if_false,
            if_pos (And.intro hr0 hs0), he1, hupd, hcur, if_pos hclen,
            if_true]
        · refine TableWF_setInfo ht1 ?_ ?_ (hklen ▸ hcpos) ?_
          · simp only [updatedNode]
            rw [List.length_zipWith, hc1, List.length_map, hvslen, hklen,
              min_self]
          · simp only [updatedNode]
            rw [List.length_zipWith, hc2, regretMatching_length, hr0, hklen,
              min_self]
          · simp only [updatedNode]
            refine forall_mem_zipWith (fun sa hsa pa hpa => ?_)
            have hpann := regretMatching_nonneg _ pa hpa
            exact add_nonneg (hc4 sa hsa)
              (mul_nonneg (mul_nonneg hpann
                (getD_nonneg reach p 1 hreach (by norm_num))) hw)
        · exact fun k' h =>
            lookupInfo_isSome_setInfo t1 k k' _
              (hm1 k' (lookupInfo_isSome_setInfo t k k' _ h))

theorem cfrChance_sound (numPlayers : ℕ) (rmPlus : Bool) (w : ℚ)
    (upd : ℕ → Bool) (keyLen : String → ℕ) (outcomes : List (ℚ × GameNode))
    (reach : List ℚ) (chanceReach : ℚ) (t : InfoStateTable)
    (hg : gameWFOutcomes numPlayers keyLen outcomes = true)
    (ht : TableWF keyLen t) (hreach : ∀ x ∈ reach, 0 ≤ x)
    (hcr : 0 ≤ chanceReach) (hw : 0 ≤ w) :
    ∃ v t', cfrChance numPlayers rmPlus w upd outcomes reach chanceReach t =
        some (v, t') ∧
      v.length = numPlayers ∧ TableWF keyLen t' ∧
      ∀ k, (lookupInfo t k).isSome → (lookupInfo t' k).isSome := by
  match outcomes with
  | [] =>
    refine ⟨vecZero numPlayers, t, ?_, vecZero_length _, ht, fun k h => h⟩
    simp only [cfrChance]
  | (q, sub) :: rest =>
    simp only [gameWFOutcomes, Bool.and_eq_true, decide_eq_true_eq] at hg
    obtain ⟨⟨hq, hsub⟩, hrest⟩ := hg
    obtain ⟨v, t1, he1, hv1, ht1, hm1⟩ :=
      cfrTraverse_sound numPlayers rmPlus w upd keyLen sub reach
        (chanceReach * q) t hsub ht hreach (mul_nonneg hcr hq) hw
    obtain ⟨vr, t2, he2, hv2, ht2, hm2⟩ :=
      cfrChance_sound numPlayers rmPlus w upd keyLen rest reach chanceReach t1
        hrest ht1 hreach hcr hw
    refine ⟨vecAdd (vecScale q v) vr, t2, ?_, ?_, ht2,
      fun k h => hm2 k (hm1 k h)⟩
    · simp only [cfrChance, he1, he2]
    · rw [vecAdd_length, vecScale_length, hv1, hv2, min_self]

theorem cfrChildren_sound (numPlayers : ℕ) (rmPlus : Bool) (w : ℚ)
    (upd : ℕ → Bool) (keyLen : String → ℕ) (p : ℕ) (σ : List ℚ)
    (children : List GameNode) (reach : List ℚ) (chanceReach : ℚ)
    (t : InfoStateTable)
    (hg : gameWFChildren numPlayers keyLen children = true)
    (ht : TableWF keyLen t) (hσ : ∀ x ∈ σ, 0 ≤ x)
    (hreach : ∀ x ∈ reach, 0 ≤ x) (hcr : 0 ≤ chanceReach) (hw : 0 ≤ w) :
    ∃ vs t', cfrChildren numPlayers rmPlus w upd p σ children reach
        chanceReach t = some (vs, t') ∧
      vs.length = children.length ∧ (∀ v ∈ vs, v.length = numPlayers) ∧
      TableWF keyLen t' ∧
      ∀ k, (lookupInfo t k).isSome → (lookupInfo t' k).isSome := by
  match children with
  | [] =>
    refine ⟨[], t, ?_, rfl, by simp, ht, fun k h => h⟩
    simp only [cfrChildren]
  | child :: rest =>
    simp only [gameWFChildren, Bool.and_eq_true] at hg
    obtain ⟨hc, hrest⟩ := hg
    have hreach' : ∀ x ∈ reach.set p (reach.getD p 1 * σ.headD 0), 0 ≤ x := by
      intro x hx
      rcases List.mem_or_eq_of_mem_set hx with hx | rfl
      · exact hreach x hx
      · exact mul_nonneg (getD_nonneg reach p 1 hreach (by norm_num))
          (headD_nonneg hσ)
    obtain ⟨v, t1, he1, hv1, ht1, hm1⟩ :=
      cfrTraverse_sound numPlayers rmPlus w upd keyLen child
        (reach.set p (reach.getD p 1 * σ.headD 0)) chanceReach t hc ht
        hreach' hcr hw
    obtain ⟨vs, t2, he2, hlen2, hv2, ht2, hm2⟩ :=
      cfrChildren_sound numPlayers rmPlus w upd keyLen p σ.tail rest reach
        chanceReach t1 hrest ht1
        (fun x hx => hσ x (List.mem_of_mem_tail hx)) hreach hcr hw
    refine ⟨v :: vs, t2, ?_, by simp [hlen2], ?_, ht2,
      fun k h => hm2 k (hm1 k h)⟩
    · simp only [cfrChildren, he1, he2]
    · intro u hu
      rcases List.mem_cons.mp hu with rfl | hu
      · exact hv1
      · exact hv2 u hu

end

theorem cfrPlayerPass_foldl_sound (numPlayers : ℕ) (rmPlus : Bool) (w : ℚ)
    (root : GameNode) (keyLen : String → ℕ)
    (hg : gameWF numPlayers keyLen root = true) (hw : 0 ≤ w) :
    ∀ (ps : List ℕ) (t : InfoStateTable), TableWF keyLen t →
      ∃ t', ps.foldl (cfrPlayerPass numPlayers rmPlus w root) (some t) =
          some t' ∧ TableWF keyLen t' := by
  intro ps
  induction ps with
  | nil => exact fun t ht => ⟨t, rfl, ht⟩
  | cons p ps ih =>
    intro t ht
    obtain ⟨v, t1, he, -, ht1, -⟩ :=
      cfrTraverse_sound numPlayers rmPlus w (fun q => q == p) keyLen root
        (List.replicate numPlayers 1) 1 t hg ht
        (fun x hx => by rw [List.eq_of_mem_replicate hx]; norm_num)
        (by norm_num) hw
    obtain ⟨t', he', ht'⟩ := ih t1 ht1
    refine ⟨t', ?_, ht'⟩
    rw [List.foldl_cons,
      show cfrPlayerPass numPlayers rmPlus w root (some t) p = some t1 by
        simp only [cfrPlayerPass, he]]
    exact he'

theorem evaluateAndUpdatePolicy_sound (numPlayers : ℕ)
    (rmPlus linAvg altUpd : Bool) (root : GameNode) (keyLen : String → ℕ)
    (st : CFRSolverState) (hg : gameWF numPlayers keyLen root = true)
    (ht : TableWF keyLen st.info_states) :
    ∃ st', EvaluateAndUpdatePolicy numPlayers rmPlus linAvg altUpd root st =
        some st' ∧ TableWF keyLen st'.info_states := by
  have hw : (0 : ℚ) ≤ (if linAvg then (st.iteration : ℚ) else 1) := by
    split
    · exact Nat.cast_nonneg _
    · norm_num
  cases altUpd with
  | true =>
    obtain ⟨t', he, ht'⟩ :=
      cfrPlayerPass_foldl_sound numPlayers rmPlus
        (if linAvg then (st.iteration : ℚ) else 1) root keyLen hg hw
        (List.range numPlayers) st.info_states ht
    exact ⟨⟨t', st.iteration + 1⟩,
      by simp only [EvaluateAndUpdatePolicy, if_true, he, Option.map_some'],
      ht'⟩
  | false =>
    obtain ⟨v, t', he, -, ht', -⟩ :=
      cfrTraverse_sound numPlayers rmPlus
        (if linAvg then (st.iteration : ℚ) else 1) (fun _ => true) keyLen root
        (List.replicate numPlayers 1) 1 st.info_states hg ht
        (fun x hx => by rw [List.eq_of_mem_replicate hx]; norm_num)
        (by norm_num) hw
    exact ⟨⟨t', st.iteration + 1⟩,
      by simp only [EvaluateAndUpdatePolicy, Bool.false_eq_true, if_false, he,
        Option.map_some'],
      ht'⟩

theorem runSolver_sound (numPlayers : ℕ) (rmPlus linAvg altUpd : Bool)
    (root : GameNode) (keyLen : String → ℕ) (n : ℕ)
    (hg : gameWF numPlayers keyLen root = true) :
    ∃ st, runSolver numPlayers rmPlus linAvg altUpd root n = some st ∧
      TableWF keyLen st.info_states := by
  induction n with
  | zero => exact ⟨⟨[], 1⟩, rfl, fun e he => by simp at he⟩
  | succ n ih =>
    obtain ⟨st, he, ht⟩ := ih
    obtain ⟨st', he', ht'⟩ :=
      evaluateAndUpdatePolicy_sound numPlayers rmPlus linAvg altUpd root
        keyLen st hg ht
    exact ⟨st', by rw [runSolver, he, Option.some_bind, he'], ht'⟩

end cfr

section C3C4Theorems

open cfr

/-- C3: for every combination of the three configuration flags, every number
`n ≥ 0` of EvaluateAndUpdatePolicy calls on any well-formed game, the run
completes (no fatal halt), and at every information set reached the action
distributions of both CurrentPolicy and AveragePolicy are non-negative and
sum to exactly 1. -/
theorem cfr_policies_c3 (rmPlus linAvg altUpd : Bool) (numPlayers : ℕ)
    (keyLen : String → ℕ) (root : GameNode) (n : ℕ)
    (hg : gameWF numPlayers keyLen root = true) :
    ∃ st, runSolver numPlayers rmPlus linAvg altUpd root n = some st ∧
      ∀ e ∈ st.info_states,
        IsProbDist (CurrentPolicyDist e.2) ∧
        IsProbDist (AveragePolicyDist e.2) := by
  obtain ⟨st, he, ht⟩ :=
    runSolver_sound numPlayers rmPlus linAvg altUpd root keyLen n hg
  refine ⟨st, he, fun e he' => ?_⟩
  obtain ⟨h1, h2, h3, h4⟩ := ht e he'
  exact ⟨regretMatching_isProbDist _ (by rw [h1]; exact h3),
    normalizeOrUniform_isProbDist _ (by rw [h2]; exact h3) h4⟩

/-- Concrete instantiation of `cfr_policies_c3`: the CFR+ flag combination on
the matching-pennies tree for 2 iterations. -/
theorem cfr_policies_c3_witness :
    ∃ st, runSolver 2 true true true mpGame 2 = some st ∧
      ∀ e ∈ st.info_states,
        IsProbDist (CurrentPolicyDist e.2) ∧
        IsProbDist (AveragePolicyDist e.2) :=
  cfr_policies_c3 true true true 2 (fun _ => 2) mpGame 2 (by decide)

/-- C4: regret matching is total on every regret vector of length `A ≥ 1`; it
returns `r⁺[i]/Σr⁺` whenever some regret is positive and the uniform
distribution `1/A` otherwise, so an infoset whose accumulated regrets are all
non-positive gets a uniform CurrentPolicy; the result is always a probability
distribution, never an error. -/
theorem regretMatching_c4 (r cs : List ℚ) (i : ℕ) (hA : 1 ≤ r.length)
    (hi : i < r.length) :
    (regretMatching r).length = r.length ∧
    (0 < (r.map (fun x => max x 0)).sum →
      (regretMatching r).getD i 0 =
        max (r.getD i 0) 0 / (r.map (fun x => max x 0)).sum) ∧
    ((∀ x ∈ r, x ≤ 0) →
      CurrentPolicyDist ⟨r, cs⟩ =
        List.replicate r.length (1 / (r.length : ℚ))) ∧
    IsProbDist (regretMatching r) := by
  refine ⟨regretMatching_length r, ?_, ?_, regretMatching_isProbDist r hA⟩
  · intro hs
    simp only [regretMatching, if_pos hs]
    simp [List.getD_eq_getElem?_getD, List.getElem?_map,
      List.getElem?_eq_getElem hi]
  · intro hnp
    have hsum : (r.map (fun x => max x 0)).sum = 0 := by
      apply List.sum_eq_zero
      intro x hx
      simp only [List.mem_map] at hx
      obtain ⟨y, hy, rfl⟩ := hx
      exact max_eq_right (hnp y hy)
    simp [CurrentPolicyDist, regretMatching, hsum]

/-- Concrete instantiation of `regretMatching_c4` at the regret vector
(−1, 2). -/
theorem regretMatching_c4_witness :
    (regretMatching [-1, 2]).length = ([-1, 2] : List ℚ).length ∧
    (0 < (([-1, 2] : List ℚ).map (fun x => max x 0)).sum →
      (regretMatching [-1, 2]).getD 0 0 =
        max (([-1, 2] : List ℚ).getD 0 0) 0 /
          (([-1, 2] : List ℚ).map (fun x => max x 0)).sum) ∧
    ((∀ x ∈ ([-1, 2] : List ℚ), x ≤ 0) →
      CurrentPolicyDist ⟨[-1, 2], []⟩ =
        List.replicate ([-1, 2] : List ℚ).length
          (1 / (([-1, 2] : List ℚ).length : ℚ))) ∧
    IsProbDist (regretMatching [-1, 2]) :=
  regretMatching_c4 [-1, 2] [] 0 (by decide) (by decide)

end C3C4Theorems
